import Mathlib

/-!
Shallow embedding of the `ai50` repository (two Python modules:
`minesweeper/minesweeper.py` and `tictactoe/tictactoe.py`) and proofs
checking the natural-language specification against the code.

Conventions of the embedding:
* Python integers become `Int` (board coordinates and sentence counts can be
  negative in principle, and the code itself subtracts freely).
* Python sets of cells become `Finset (Int × Int)`; iteration over a set is
  modelled by folding over `Finset.toList` (all per-cell operations performed
  by such loops are idempotent and commute, so the final state does not
  depend on the iteration order, and the model picks a canonical order).
* Python lists become `List`; the list `new_knowledge` is used by the code as
  a LIFO stack (`append`/`pop`), which is modelled by pushing and popping at
  the head of a Lean list (so the model list is the reverse of the Python
  one, with identical pop order).
* The `while new_knowledge:` loop of `add_knowledge` need not terminate
  (derived sentences may regenerate each other), so it is given explicit
  fuel and returns `Option`; `none` means the fuel bound was reached.
  All concrete runs in this file use ample fuel.
-/

namespace Minesweeper

/-- A board cell, a Python `(i, j)` tuple of ints. -/
abbrev MCell := Int × Int

/-- `Sentence(cells, count)`: the logical statement that exactly `count` of
the cells in `cells` are mines (from `minesweeper.py`, class `Sentence`). -/
structure Sentence where
  cells : Finset MCell
  count : Int
deriving DecidableEq

/-- `Sentence.mark_mine`: if `cell` is a member, remove it and decrement
`count`; otherwise do nothing. -/
def Sentence.markMine (c : MCell) (s : Sentence) : Sentence :=
  if c ∈ s.cells then { cells := s.cells.erase c, count := s.count - 1 } else s

/-- `Sentence.mark_safe`: if `cell` is a member, remove it (count unchanged);
otherwise do nothing. -/
def Sentence.markSafe (c : MCell) (s : Sentence) : Sentence :=
  if c ∈ s.cells then { cells := s.cells.erase c, count := s.count } else s

/-- The mutable state of a `MinesweeperAI` instance. -/
structure AgentState where
  height : Int
  width : Int
  moves_made : Finset MCell
  mines : Finset MCell
  safes : Finset MCell
  knowledge : List Sentence

/-- `MinesweeperAI.__init__(height, width)`. -/
def initAI (h w : Int) : AgentState :=
  { height := h, width := w, moves_made := ∅, mines := ∅, safes := ∅, knowledge := [] }

/-- `MinesweeperAI.mark_mine(cell)`: add to `self.mines` and propagate
`Sentence.mark_mine` to every sentence in `self.knowledge`. -/
def markMine (st : AgentState) (c : MCell) : AgentState :=
  { st with mines := insert c st.mines,
            knowledge := st.knowledge.map (Sentence.markMine c) }

/-- `MinesweeperAI.mark_safe(cell)`: add to `self.safes` and propagate
`Sentence.mark_safe` to every sentence in `self.knowledge`. -/
def markSafe (st : AgentState) (c : MCell) : AgentState :=
  { st with safes := insert c st.safes,
            knowledge := st.knowledge.map (Sentence.markSafe c) }

/-- Lexicographic order on cells, used as the canonical iteration order for
Python's (order-unspecified) `set` iteration. -/
def cellLe (a b : MCell) : Prop := a.1 < b.1 ∨ (a.1 = b.1 ∧ a.2 ≤ b.2)

instance : DecidableRel cellLe := fun a b => by unfold cellLe; infer_instance

instance : IsTrans MCell cellLe :=
  ⟨by intro a b c hab hbc; rcases hab with h | ⟨h1, h2⟩ <;> rcases hbc with h' | ⟨h1', h2'⟩ <;>
      unfold cellLe <;> omega⟩

instance : IsAntisymm MCell cellLe :=
  ⟨by intro a b hab hba; rcases hab with h | ⟨h1, h2⟩ <;> rcases hba with h' | ⟨h1', h2'⟩ <;>
      [omega; omega; omega; exact Prod.ext h1 (le_antisymm h2 h2')]⟩

instance : IsTotal MCell cellLe :=
  ⟨by intro a b; unfold cellLe; omega⟩

/-- Iterate a Python set of cells in the canonical order.  (Implemented via
`insertionSort` rather than `Finset.sort` so that it reduces inside the
kernel, which lets concrete runs be checked by `decide`.) -/
def cellsList (cs : Finset MCell) : List MCell :=
  Quot.liftOn cs.val (fun l => l.insertionSort cellLe) (fun l1 l2 h =>
    List.eq_of_perm_of_sorted
      ((List.perm_insertionSort cellLe l1).trans
        ((Quotient.exact (Quot.sound h)).trans (List.perm_insertionSort cellLe l2).symm))
      (List.sorted_insertionSort cellLe l1) (List.sorted_insertionSort cellLe l2))

/-- `for cell in cells: self.mark_mine(cell)` over a set of cells. -/
def markMineAll (st : AgentState) (cs : Finset MCell) : AgentState :=
  (cellsList cs).foldl markMine st

/-- `for cell in cells: self.mark_safe(cell)` over a set of cells. -/
def markSafeAll (st : AgentState) (cs : Finset MCell) : AgentState :=
  (cellsList cs).foldl markSafe st

/-- `for cell in cells: self.mark_safe(cell)` over a list of cells. -/
def markSafeList (st : AgentState) (cs : List MCell) : AgentState :=
  cs.foldl markSafe st

/-- `for cell in cells: self.mark_mine(cell)` over a list of cells. -/
def markMineList (st : AgentState) (cs : List MCell) : AgentState :=
  cs.foldl markMine st

/-- The integers from `lo` to `hi` inclusive, i.e. Python `range(lo, hi + 1)`. -/
def intRange (lo hi : Int) : List Int :=
  (List.range (hi + 1 - lo).toNat).map (fun (k : Nat) => lo + (k : Int))

/-- `MinesweeperAI.get_surrounding_cells(cell)`: scan the grid-clamped 3×3
block around `cell` (the code does **not** skip `cell` itself) and keep the
cells not in `moves_made`, `safes` or `mines`. -/
def getSurroundingCells (st : AgentState) (cell : MCell) : List MCell :=
  let min_i := max 0 (cell.1 - 1)
  let max_i := min (st.height - 1) (cell.1 + 1)
  let min_j := max 0 (cell.2 - 1)
  let max_j := min (st.width - 1) (cell.2 + 1)
  (intRange min_i max_i).flatMap (fun i =>
    (intRange min_j max_j).filterMap (fun j =>
      if (i, j) ∈ st.moves_made ∨ (i, j) ∈ st.safes ∨ (i, j) ∈ st.mines then none
      else some (i, j)))

/-- `MinesweeperAI.make_safe_move()`: first safe cell not yet played (the
Python iterates `self.safes`; the model iterates it in canonical order). -/
def makeSafeMove (st : AgentState) : Option MCell :=
  (cellsList st.safes).find? (fun i => i ∉ st.moves_made)

/-- `MinesweeperAI.make_random_move()`. The Python body is
`for i in self.safes: if i not in self.moves_made: return safe_moves.append(i)`
followed by `return random.choice(safe_moves) if safe_moves else None`.
`list.append` returns `None`, so the loop returns `None` as soon as a
candidate is found; and if the loop finishes, `safe_moves` is still empty, so
the last line also returns `None`.  The function therefore always returns
`None`, on every state. -/
def makeRandomMove (st : AgentState) : Option MCell :=
  if (st.safes.filter (fun i => i ∉ st.moves_made)).Nonempty then none
  else none

/-- One pass of `MinesweeperAI.update_with_knowledge`, as an index-driven
loop.  Each iteration either removes the sentence at index `i` (when it is
trivially resolved) and marks all of its cells, or advances `i`.  The loop
runs at most `knowledge.length` iterations (the measure `length - i` drops
each time), so the `fuel` given by `updateWithKnowledge` below is always
sufficient and the `fuel = 0` fallback is unreachable. -/
def updateLoop : Nat → AgentState → Nat → AgentState
  | 0, st, _ => st
  | fuel + 1, st, i =>
    if h : i < st.knowledge.length then
      let s := st.knowledge.get ⟨i, h⟩
      if (s.cells.card : Int) = s.count then
        updateLoop fuel (markMineAll { st with knowledge := st.knowledge.eraseIdx i } s.cells) i
      else if s.count = 0 then
        updateLoop fuel (markSafeAll { st with knowledge := st.knowledge.eraseIdx i } s.cells) i
      else
        updateLoop fuel st (i + 1)
    else st

/-- `MinesweeperAI.update_with_knowledge()`. -/
def updateWithKnowledge (st : AgentState) : AgentState :=
  updateLoop st.knowledge.length st 0

/-- The `while new_knowledge:` loop at the end of `add_knowledge`.

State threaded through: the agent, the staged stack `nk` (head = next pop,
mirroring Python `list.pop()` from the tail), and the **local variable
`cells`** of `add_knowledge`, which the trivial-resolution branches iterate
(`for cell in cells`) — the source marks the cells currently stored in that
local variable, not the popped sentence's own cells — and which the subset
branches reassign (`cells = sentence2.cells - sentence1.cells` etc.).

The loop can run forever in Python (mutually-derivable sentences regenerate
each other), hence the fuel. -/
def resolveLoop : Nat → AgentState → List Sentence → Finset MCell → Option AgentState
  | 0, _, _, _ => none
  | _ + 1, st, [], _ => some st
  | fuel + 1, st, s1 :: rest, cells =>
    if (s1.cells.card : Int) = s1.count then
      resolveLoop fuel (markMineAll st cells) rest cells
    else if s1.count = 0 then
      resolveLoop fuel (markSafeAll st cells) rest cells
    else
      let step := st.knowledge.foldl
        (fun (acc : List Sentence × Finset MCell) s2 =>
          if s1.cells ⊆ s2.cells then
            let c := s2.cells \ s1.cells
            (⟨c, s2.count - s1.count⟩ :: acc.1, c)
          else if s2.cells ⊆ s1.cells then
            let c := s1.cells \ s2.cells
            (⟨c, s1.count - s2.count⟩ :: acc.1, c)
          else acc)
        (rest, cells)
      resolveLoop fuel { st with knowledge := st.knowledge ++ [s1] } step.1 step.2

/-- `MinesweeperAI.add_knowledge(cell, count)`: record the move, mark the
cell safe, build the unknown-neighbour sentence (or shortcut when `count`
is `0` or `len(cells)`), run `update_with_knowledge`, then the staged
resolution loop. `none` means the resolution loop exceeded `fuel` pops. -/
def addKnowledge (fuel : Nat) (st : AgentState) (cell : MCell) (count : Int) :
    Option AgentState :=
  let st1 := { st with moves_made := insert cell st.moves_made }
  let st2 := markSafe st1 cell
  let cells := getSurroundingCells st2 cell
  let staged :=
    if count = 0 then (markSafeList st2 cells, ([] : List Sentence))
    else if count = (cells.length : Int) then (markMineList st2 cells, ([] : List Sentence))
    else (st2, [(⟨cells.toFinset, count⟩ : Sentence)])
  let st3 := updateWithKnowledge staged.1
  resolveLoop fuel st3 staged.2 cells.toFinset

/-!
Concrete runs used to check the code against the spec.  Both sequences are
*honest* play: every call reports facts true of an actual board.

`stC1` plays on a 3×5 grid whose mines are `(1,0)` and `(1,1)`:
first five `mark_safe` calls on genuinely safe cells, then
`add_knowledge((0,1), 2)` (neighbour mine count of `(0,1)` is 2),
`add_knowledge((2,2), 1)` and `add_knowledge((0,2), 1)`.
The last call stages `{(1,1),(1,2)} = 1`, whose subset resolution against
the knowledge base derives `{(1,0)} = 1` and then `{(2,3)} = 0`; when the
loop pops the trivially-resolved `{(1,0)} = 1`, the local variable `cells`
holds `{(2,3)}`, so the code marks `(2,3)` as a mine instead of `(1,0)`.

`stC4` plays on a 3×3 grid whose mines are `(0,1)` and `(1,2)`:
`add_knowledge((0,0), 1)`, `mark_mine((0,1))`, `add_knowledge((2,2), 1)`.
The last call stages `{(1,1),(1,2),(2,1)} = 1` *before* the cleanup pass
resolves `{(1,0),(1,1)} = 0`, so the staged sentence still contains
`(1,1)` when it is appended to the knowledge base, although `(1,1)` is by
then a confirmed member of `safes`.
-/

/-- Five `mark_safe` calls on safe filler cells of the 3×5 scenario. -/
def preMarked : AgentState :=
  markSafe (markSafe (markSafe (markSafe (markSafe (initAI 3 5) (0,0)) (0,2)) (0,3)) (1,3)) (2,1)

/-- Final agent state of the 3×5 scenario (`some` since fuel suffices). -/
def stC1 : Option AgentState :=
  (addKnowledge 10 preMarked (0,1) 2).bind fun st1 =>
  (addKnowledge 10 st1 (2,2) 1).bind fun st2 =>
  addKnowledge 10 st2 (0,2) 1

/-- Final agent state of the 3×3 scenario (`some` since fuel suffices). -/
def stC4 : Option AgentState :=
  (addKnowledge 10 (initAI 3 3) (0,0) 1).bind fun st1 =>
  addKnowledge 10 (markMine st1 (0,1)) (2,2) 1

end Minesweeper

namespace TicTacToe

/-- The two marks; Python `X = "X"` and `O = "O"`. -/
inductive Player where
  | X : Player
  | O : Player
deriving DecidableEq

/-- A board cell: `none` is Python `EMPTY`. -/
abbrev TCell := Option Player

/-- A 3×3 board (Python list of three 3-element lists). -/
abbrev TBoard := Fin 3 → Fin 3 → TCell

/-- Build a board from row-major lists (missing entries default to empty). -/
def ofRows (rows : List (List TCell)) : TBoard :=
  fun i j => (rows.getD i.val []).getD j.val none

/-- `initial_state()`. -/
def initial_state : TBoard := fun _ _ => none

/-- The number of cells holding mark `p`. -/
def countMark (b : TBoard) (p : Player) : Nat :=
  ((Finset.univ : Finset (Fin 3 × Fin 3)).filter (fun ij => b ij.1 ij.2 = some p)).card

/-- `player(board)`: `X` unless strictly more `X`s than `O`s have been placed. -/
def player (b : TBoard) : Player :=
  if countMark b Player.O < countMark b Player.X then Player.O else Player.X

/-- `actions(board)`: the empty coordinates.  The Python function returns a
`set`; the model enumerates it in row-major order. -/
def actionsList (b : TBoard) : List (Fin 3 × Fin 3) :=
  (List.finRange 3).flatMap (fun i =>
    (List.finRange 3).filterMap (fun j => if b i j = none then some (i, j) else none))

/-- Write mark `m` at cell `a` (the in-place update `board[i][j] = turn`
performed on the deep copy inside `result`). -/
def place (b : TBoard) (a : Fin 3 × Fin 3) (m : Player) : TBoard :=
  fun i j => if (i, j) = a then some m else b i j

/-- `result(board, action)`: on an occupied target raise (`Except.error ()`);
otherwise return a fresh board with `player(board)`'s mark at `action`.
(The Python computes `turn = player(result_board)` on the untouched deep
copy, which equals `player(board)`.) -/
def result (b : TBoard) (a : Fin 3 × Fin 3) : Except Unit TBoard :=
  if b a.1 a.2 ≠ none then Except.error ()
  else Except.ok (place b a (player b))

/-- `winner(board)`, translated check-for-check in the source's order
(`board[-1]` on a 3-element Python list is `board[2]`).  Like the source,
it compares cell values directly with no non-empty guard, and returns the
first triple of equal values it finds — i = 0: both diagonals, row 0,
column 0; i = 1: row 1, column 1; i = 2: row 2, column 2. -/
def winner (b : TBoard) : TCell :=
  if b 0 0 = b 1 1 ∧ b 1 1 = b 2 2 then b 0 0
  else if b 0 2 = b 1 1 ∧ b 1 1 = b 2 0 then b 0 2
  else if b 0 0 = b 0 1 ∧ b 0 1 = b 0 2 then b 0 0
  else if b 0 0 = b 1 0 ∧ b 1 0 = b 2 0 then b 0 0
  else if b 1 0 = b 1 1 ∧ b 1 1 = b 1 2 then b 1 0
  else if b 0 1 = b 1 1 ∧ b 1 1 = b 2 1 then b 0 1
  else if b 2 0 = b 2 1 ∧ b 2 1 = b 2 2 then b 2 0
  else if b 0 2 = b 1 2 ∧ b 1 2 = b 2 2 then b 0 2
  else none

/-- `terminal(board)`: a winner exists, or no cell is empty (the Python scans
the grid for an `EMPTY` cell, which is exactly `actions(board)` emptiness). -/
def terminal (b : TBoard) : Bool :=
  (winner b).isSome || (actionsList b).isEmpty

/-- `utility(board)`: `1` if `winner` is `X`, `-1` if `O`, else `0`. -/
def utility (b : TBoard) : Int :=
  match winner b with
  | some Player.X => 1
  | some Player.O => -1
  | none => 0

/-- The mutually recursive `max_value`/`min_value` pair, fused into one
function with a `maximize` flag and explicit recursion depth.  `-2` and `2`
stand for Python's `float('-inf')` / `float('inf')`: every position value
lies in `[-1, 1]`, so they compare the same way.  A call needs recursion
depth `emptyCount b ≤ 9`, so the fixed fuel `9` used below always suffices
and the `fuel = 0` fallback is only ever reached on full (terminal) boards. -/
def mmValue : Nat → Bool → TBoard → Int
  | 0, _, b => utility b
  | fuel + 1, maximize, b =>
    if terminal b then utility b
    else if maximize then
      (actionsList b).foldl (fun v a => max v (mmValue fuel false (place b a (player b)))) (-2)
    else
      (actionsList b).foldl (fun v a => min v (mmValue fuel true (place b a (player b)))) 2

/-- `max_value(board)`. -/
def maxValue (b : TBoard) : Int := mmValue 9 true b

/-- `min_value(board)`. -/
def minValue (b : TBoard) : Int := mmValue 9 false b

/-- `minimax(board)`: `None` on terminal boards; otherwise the strict-
improvement scan of the source — `if value > v` for `X`, `if value < v`
for `O` — over `actions(board)`, starting from `optimal_action = None` and
`v = ∓inf`.  Inside the loop the source evaluates `result(board, action)`,
which for an action of `actions(board)` is `place b a (player b)`. -/
def minimax (b : TBoard) : Option (Fin 3 × Fin 3) :=
  if terminal b then none
  else if player b = Player.X then
    ((actionsList b).foldl
      (fun (acc : Option (Fin 3 × Fin 3) × Int) a =>
        if acc.2 < minValue (place b a (player b)) then (some a, minValue (place b a (player b)))
        else acc)
      (none, -2)).1
  else
    ((actionsList b).foldl
      (fun (acc : Option (Fin 3 × Fin 3) × Int) a =>
        if maxValue (place b a (player b)) < acc.2 then (some a, maxValue (place b a (player b)))
        else acc)
      (none, 2)).1

/-- The board `[[EMPTY, EMPTY, EMPTY], [X, X, X], [O, O, EMPTY]]`: a position
reachable by legal alternating play (X just completed row 1) on which the
game is won by `X`. -/
def rowTwoBoard : TBoard :=
  ofRows [[none, none, none],
          [some Player.X, some Player.X, some Player.X],
          [some Player.O, some Player.O, none]]

/-- A non-terminal board with a single empty cell `(2,2)`, used to witness
the `minimax` specification at a concrete input. -/
def oneMoveBoard : TBoard :=
  ofRows [[some Player.X, some Player.O, some Player.X],
          [some Player.X, some Player.O, some Player.O],
          [some Player.O, some Player.X, none]]

/-!
A heap model for the frame property of `result`: Python board objects live
in a store and are denoted by reference indices.  `copy.deepcopy` allocates
a fresh object at the end of the store; the assignment
`result_board[i][j] = turn` is an in-place write to the fresh object.
-/

/-- The heap of board objects. -/
abbrev Store := List TBoard

/-- `copy.deepcopy(board)`: append a structural copy, return its index. -/
def deepcopy (s : Store) (r : Nat) : Store × Nat :=
  (s ++ [s.getD r initial_state], s.length)

/-- `result(board, action)` acting on the store: deep-copy the argument,
check the target cell on the copy, raise or write the mark in place. -/
def resultSt (s : Store) (r : Nat) (a : Fin 3 × Fin 3) : Store × Except Unit Nat :=
  let copied := deepcopy s r
  let cb := copied.1.getD copied.2 initial_state
  if cb a.1 a.2 ≠ none then (copied.1, Except.error ())
  else (copied.1.set copied.2 (place cb a (player cb)), Except.ok copied.2)

end TicTacToe

namespace Minesweeper

lemma mem_intRange {lo hi k : Int} : k ∈ intRange lo hi ↔ lo ≤ k ∧ k ≤ hi := by
  unfold intRange
  simp only [List.mem_map, List.mem_range]
  constructor
  · rintro ⟨m, hm, rfl⟩; omega
  · rintro ⟨h1, h2⟩; exact ⟨(k - lo).toNat, by omega, by omega⟩

lemma sentence_markMine_idem (c : MCell) (s : Sentence) :
    Sentence.markMine c (Sentence.markMine c s) = Sentence.markMine c s := by
  by_cases h : c ∈ s.cells
  · simp [Sentence.markMine, h, Finset.not_mem_erase]
  · simp [Sentence.markMine, h]

lemma sentence_markSafe_idem (c : MCell) (s : Sentence) :
    Sentence.markSafe c (Sentence.markSafe c s) = Sentence.markSafe c s := by
  by_cases h : c ∈ s.cells
  · simp [Sentence.markSafe, h, Finset.not_mem_erase]
  · simp [Sentence.markSafe, h]

lemma agent_markMine_idem (st : AgentState) (c : MCell) :
    markMine (markMine st c) c = markMine st c := by
  unfold markMine
  simp only [List.map_map, Finset.insert_idem]
  congr 1
  exact List.map_congr_left (fun s _ => sentence_markMine_idem c s)

lemma agent_markSafe_idem (st : AgentState) (c : MCell) :
    markSafe (markSafe st c) c = markSafe st c := by
  unfold markSafe
  simp only [List.map_map, Finset.insert_idem]
  congr 1
  exact List.map_congr_left (fun s _ => sentence_markSafe_idem c s)

/-- Claim C9: `Sentence.mark_mine`, `Sentence.mark_safe`,
`MinesweeperAI.mark_mine` and `MinesweeperAI.mark_safe` are idempotent:
applying any of them twice with the same cell yields the same sentence or
agent state as applying it once. -/
theorem mark_operations_idempotent :
    (∀ (s : Sentence) (c : MCell),
        Sentence.markMine c (Sentence.markMine c s) = Sentence.markMine c s) ∧
    (∀ (s : Sentence) (c : MCell),
        Sentence.markSafe c (Sentence.markSafe c s) = Sentence.markSafe c s) ∧
    (∀ (st : AgentState) (c : MCell), markMine (markMine st c) c = markMine st c) ∧
    (∀ (st : AgentState) (c : MCell), markSafe (markSafe st c) c = markSafe st c) :=
  ⟨fun s c => sentence_markMine_idem c s, fun s c => sentence_markSafe_idem c s,
   agent_markMine_idem, agent_markSafe_idem⟩

/-- Claim C5 (corrected): `get_surrounding_cells(cell)` returns exactly the
in-grid cells of the 3×3 block centred at `cell` — *including* `cell`
itself — that belong to none of `moves_made`, `safes`, `mines`. -/
theorem getSurroundingCells_characterization (st : AgentState) (c x : MCell) :
    x ∈ getSurroundingCells st c ↔
      0 ≤ x.1 ∧ x.1 < st.height ∧ 0 ≤ x.2 ∧ x.2 < st.width ∧
      c.1 - 1 ≤ x.1 ∧ x.1 ≤ c.1 + 1 ∧ c.2 - 1 ≤ x.2 ∧ x.2 ≤ c.2 + 1 ∧
      x ∉ st.moves_made ∧ x ∉ st.safes ∧ x ∉ st.mines := by
  obtain ⟨a, b⟩ := x
  simp only [getSurroundingCells, List.mem_flatMap, List.mem_filterMap, mem_intRange]
  constructor
  · rintro ⟨i, ⟨hi1, hi2⟩, j, ⟨hj1, hj2⟩, hij⟩
    by_cases hmem : (i, j) ∈ st.moves_made ∨ (i, j) ∈ st.safes ∨ (i, j) ∈ st.mines
    · rw [if_pos hmem] at hij; exact absurd hij (by simp)
    · rw [if_neg hmem] at hij
      have hinj := Option.some.inj hij
      obtain ⟨rfl, rfl⟩ : i = a ∧ j = b :=
        ⟨congrArg Prod.fst hinj, congrArg Prod.snd hinj⟩
      push_neg at hmem
      refine ⟨le_trans (le_max_left _ _) hi1,
              lt_of_le_of_lt (le_trans hi2 (min_le_left _ _)) (by omega),
              le_trans (le_max_left _ _) hj1,
              lt_of_le_of_lt (le_trans hj2 (min_le_left _ _)) (by omega),
              le_trans (le_max_right _ _) hi1, le_trans hi2 (min_le_right _ _),
              le_trans (le_max_right _ _) hj1, le_trans hj2 (min_le_right _ _),
              hmem.1, hmem.2.1, hmem.2.2⟩
  · rintro ⟨h1, h2, h3, h4, h5, h6, h7, h8, h9, h10, h11⟩
    refine ⟨a, ⟨max_le h1 h5, le_min (by omega) h6⟩,
            b, ⟨max_le h3 h7, le_min (by omega) h8⟩, ?_⟩
    rw [if_neg]
    simp only [not_or]
    exact ⟨h9, h10, h11⟩

/-- Claim C5, counterexample to the claim as stated: on a fresh 3×3 agent the
call `get_surrounding_cells((0,0))` *does* return the cell `(0,0)` itself
(which is unknown: in none of `moves_made`, `safes`, `mines`), contradicting
"adjacent cells, not including cell itself". -/
theorem getSurroundingCells_includes_center :
    ((0, 0) : MCell) ∈ getSurroundingCells (initAI 3 3) (0, 0) ∧
    ((0, 0) : MCell) ∉ (initAI 3 3).moves_made ∧
    ((0, 0) : MCell) ∉ (initAI 3 3).safes ∧
    ((0, 0) : MCell) ∉ (initAI 3 3).mines := by decide

/-- Claim C2: contrary to the claim, `make_random_move` returns `None` on
*every* agent state — `return safe_moves.append(i)` returns the result of
`list.append`, which is `None`, and when the loop falls through,
`safe_moves` is still empty.  In particular on a fresh 1×1 agent the grid
cell `(0,0)` is in neither `moves_made` nor `mines`, yet the function
returns `None`. -/
theorem makeRandomMove_always_none :
    (∀ st : AgentState, makeRandomMove st = none) ∧
    makeRandomMove (initAI 1 1) = none ∧
    ((0, 0) : MCell) ∉ (initAI 1 1).moves_made ∧
    ((0, 0) : MCell) ∉ (initAI 1 1).mines ∧
    (0 : Int) < (initAI 1 1).height ∧ (0 : Int) < (initAI 1 1).width := by
  refine ⟨fun st => ?_, by decide, by decide, by decide, by decide, by decide⟩
  simp [makeRandomMove]

/-- Claim C1: in the honest 3×5 run `stC1`, the resolution loop pops the
trivially-resolved sentence `{(1,0)} = 1`, but because the marking loop
iterates the stale local variable `cells` (then holding `{(2,3)}`) instead
of the popped sentence's own cell-set, the final state has `(1,0)`
unmarked and `(2,3)` — a provably safe cell — marked as a mine. -/
theorem addKnowledge_trivial_resolution_marks_stale_cells :
    stC1.isSome = true ∧
    ((1, 0) : MCell) ∉ (stC1.getD (initAI 0 0)).mines ∧
    ((2, 3) : MCell) ∈ (stC1.getD (initAI 0 0)).mines ∧
    ((2, 3) : MCell) ∈ (stC1.getD (initAI 0 0)).safes := by decide

/-- Claim C3: after the honest call sequence of `stC1` (five `mark_safe`
calls and three `add_knowledge` calls from a fresh agent), the cell
`(2,3)` belongs to both `safes` and `mines`, so `safes ∩ mines ≠ ∅`. -/
theorem safes_mines_intersection_nonempty :
    stC1.isSome = true ∧
    ((2, 3) : MCell) ∈ (stC1.getD (initAI 0 0)).safes ∩ (stC1.getD (initAI 0 0)).mines := by
  decide

/-- Claim C4: after the honest call sequence of `stC4` (`add_knowledge`,
`mark_mine`, `add_knowledge` from a fresh 3×3 agent), the confirmed-safe
cell `(1,1)` still occurs in the cell-set of a sentence of the knowledge
base: the staged sentence missed the `mark_safe` propagation that happened
between its creation and its insertion. -/
theorem knowledge_retains_confirmed_cell :
    stC4.isSome = true ∧
    ((1, 1) : MCell) ∈ (stC4.getD (initAI 0 0)).safes ∧
    (∃ s ∈ (stC4.getD (initAI 0 0)).knowledge, ((1, 1) : MCell) ∈ s.cells) := by decide

end Minesweeper

namespace TicTacToe

lemma of_terminal_eq_false {b : TBoard} (h : terminal b = false) :
    winner b = none ∧ actionsList b ≠ [] := by
  unfold terminal at h
  rw [Bool.or_eq_false_iff] at h
  exact ⟨Option.not_isSome_iff_eq_none.mp (by simp [h.1]),
         List.isEmpty_eq_false.mp h.2⟩

lemma result_eq_ok_place {b : TBoard} {a : Fin 3 × Fin 3} (h : b a.1 a.2 = none) :
    result b a = Except.ok (place b a (player b)) := by
  unfold result
  rw [if_neg (by simp [h])]

lemma utility_bounds (b : TBoard) : -1 ≤ utility b ∧ utility b ≤ 1 := by
  unfold utility
  split <;> exact ⟨by decide, by decide⟩

section FoldBounds

variable {α : Type} (f : α → Int)

lemma init_le_foldl_max :
    ∀ (l : List α) (v : Int), v ≤ l.foldl (fun v a => max v (f a)) v
  | [], _ => le_refl _
  | _x :: t, _v => le_trans (le_max_left _ _) (init_le_foldl_max t _)

lemma mem_le_foldl_max :
    ∀ (l : List α) (v : Int) (x : α), x ∈ l → f x ≤ l.foldl (fun v a => max v (f a)) v
  | y :: t, _v, x, hx => by
    rcases List.mem_cons.mp hx with rfl | hx
    · exact le_trans (le_max_right _ _) (init_le_foldl_max f t _)
    · exact mem_le_foldl_max t _ x hx

lemma foldl_max_le :
    ∀ (l : List α) (v c : Int), v ≤ c → (∀ x ∈ l, f x ≤ c) →
      l.foldl (fun v a => max v (f a)) v ≤ c
  | [], _, _, hv, _ => hv
  | x :: t, _v, c, hv, hl =>
    foldl_max_le t _ c (max_le hv (hl x (List.mem_cons_self x t)))
      (fun y hy => hl y (List.mem_cons_of_mem x hy))

lemma foldl_min_le_init :
    ∀ (l : List α) (v : Int), l.foldl (fun v a => min v (f a)) v ≤ v
  | [], _ => le_refl _
  | _x :: t, _v => le_trans (foldl_min_le_init t _) (min_le_left _ _)

lemma foldl_min_le_mem :
    ∀ (l : List α) (v : Int) (x : α), x ∈ l → l.foldl (fun v a => min v (f a)) v ≤ f x
  | y :: t, _v, x, hx => by
    rcases List.mem_cons.mp hx with rfl | hx
    · exact le_trans (foldl_min_le_init f t _) (min_le_right _ _)
    · exact foldl_min_le_mem t _ x hx

lemma le_foldl_min :
    ∀ (l : List α) (v c : Int), c ≤ v → (∀ x ∈ l, c ≤ f x) →
      c ≤ l.foldl (fun v a => min v (f a)) v
  | [], _, _, hv, _ => hv
  | x :: t, _v, c, hv, hl =>
    le_foldl_min t _ c (le_min hv (hl x (List.mem_cons_self x t)))
      (fun y hy => hl y (List.mem_cons_of_mem x hy))

end FoldBounds

lemma mmValue_bounds :
    ∀ (fuel : Nat) (mx : Bool) (b : TBoard),
      -1 ≤ mmValue fuel mx b ∧ mmValue fuel mx b ≤ 1
  | 0, _, b => utility_bounds b
  | fuel + 1, mx, b => by
    simp only [mmValue]
    by_cases ht : terminal b = true
    · rw [if_pos ht]; exact utility_bounds b
    · rw [if_neg ht]
      have hne := (of_terminal_eq_false (Bool.not_eq_true _ ▸ ht)).2
      obtain ⟨x, hx⟩ := List.exists_mem_of_ne_nil _ hne
      cases mx with
      | true =>
        rw [if_pos rfl]
        constructor
        · exact le_trans (mmValue_bounds fuel false (place b x (player b))).1
            (mem_le_foldl_max _ _ _ x hx)
        · exact foldl_max_le _ _ _ 1 (by decide)
            (fun y _ => (mmValue_bounds fuel false (place b y (player b))).2)
      | false =>
        rw [if_neg (by decide)]
        constructor
        · exact le_foldl_min _ _ _ (-1) (by decide)
            (fun y _ => (mmValue_bounds fuel true (place b y (player b))).1)
        · exact le_trans (foldl_min_le_mem _ _ _ x hx)
            (mmValue_bounds fuel true (place b x (player b))).2

section ArgFold

variable {α : Type} (f : α → Int)

lemma argmax_foldl_snd :
    ∀ (l : List α) (o : Option α) (v : Int),
      v ≤ (l.foldl (fun acc a => if acc.2 < f a then (some a, f a) else acc) (o, v)).2 ∧
      ∀ x ∈ l, f x ≤ (l.foldl (fun acc a => if acc.2 < f a then (some a, f a) else acc) (o, v)).2
  | [], o, v => ⟨le_refl _, by simp⟩
  | x :: t, o, v => by
    simp only [List.foldl_cons]
    by_cases h : v < f x
    · rw [if_pos h]
      obtain ⟨h1, h2⟩ := argmax_foldl_snd t (some x) (f x)
      refine ⟨le_trans (le_of_lt h) h1, fun y hy => ?_⟩
      rcases List.mem_cons.mp hy with rfl | hy
      · exact h1
      · exact h2 y hy
    · rw [if_neg h]
      obtain ⟨h1, h2⟩ := argmax_foldl_snd t o v
      refine ⟨h1, fun y hy => ?_⟩
      rcases List.mem_cons.mp hy with rfl | hy
      · exact le_trans (le_of_not_lt h) h1
      · exact h2 y hy

lemma argmax_foldl_fst :
    ∀ (l : List α) (o : Option α) (v : Int),
      l.foldl (fun acc a => if acc.2 < f a then (some a, f a) else acc) (o, v) = (o, v) ∨
      ∃ a ∈ l, l.foldl (fun acc a => if acc.2 < f a then (some a, f a) else acc) (o, v) =
        (some a, f a)
  | [], o, v => Or.inl rfl
  | x :: t, o, v => by
    simp only [List.foldl_cons]
    by_cases h : v < f x
    · rw [if_pos h]
      rcases argmax_foldl_fst t (some x) (f x) with h' | ⟨a, ha, h'⟩
      · exact Or.inr ⟨x, List.mem_cons_self x t, h'⟩
      · exact Or.inr ⟨a, List.mem_cons_of_mem x ha, h'⟩
    · rw [if_neg h]
      rcases argmax_foldl_fst t o v with h' | ⟨a, ha, h'⟩
      · exact Or.inl h'
      · exact Or.inr ⟨a, List.mem_cons_of_mem x ha, h'⟩

lemma argmax_spec (l : List α) (hne : l ≠ []) (hb : ∀ x ∈ l, (-2 : Int) < f x) :
    ∃ a ∈ l,
      (l.foldl (fun acc a => if acc.2 < f a then (some a, f a) else acc)
        ((none : Option α), (-2 : Int))).1 = some a ∧
      ∀ x ∈ l, f x ≤ f a := by
  rcases argmax_foldl_fst f l none (-2) with h | ⟨a, ha, h⟩
  · obtain ⟨x, hx⟩ := List.exists_mem_of_ne_nil l hne
    have hle := (argmax_foldl_snd f l none (-2)).2 x hx
    rw [h] at hle
    exact absurd hle (not_le.mpr (hb x hx))
  · refine ⟨a, ha, by rw [h], fun x hx => ?_⟩
    have hle := (argmax_foldl_snd f l none (-2)).2 x hx
    rwa [h] at hle

lemma argmin_foldl_snd :
    ∀ (l : List α) (o : Option α) (v : Int),
      (l.foldl (fun acc a => if f a < acc.2 then (some a, f a) else acc) (o, v)).2 ≤ v ∧
      ∀ x ∈ l, (l.foldl (fun acc a => if f a < acc.2 then (some a, f a) else acc) (o, v)).2 ≤ f x
  | [], o, v => ⟨le_refl _, by simp⟩
  | x :: t, o, v => by
    simp only [List.foldl_cons]
    by_cases h : f x < v
    · rw [if_pos h]
      obtain ⟨h1, h2⟩ := argmin_foldl_snd t (some x) (f x)
      refine ⟨le_trans h1 (le_of_lt h), fun y hy => ?_⟩
      rcases List.mem_cons.mp hy with rfl | hy
      · exact h1
      · exact h2 y hy
    · rw [if_neg h]
      obtain ⟨h1, h2⟩ := argmin_foldl_snd t o v
      refine ⟨h1, fun y hy => ?_⟩
      rcases List.mem_cons.mp hy with rfl | hy
      · exact le_trans h1 (le_of_not_lt h)
      · exact h2 y hy

lemma argmin_foldl_fst :
    ∀ (l : List α) (o : Option α) (v : Int),
      l.foldl (fun acc a => if f a < acc.2 then (some a, f a) else acc) (o, v) = (o, v) ∨
      ∃ a ∈ l, l.foldl (fun acc a => if f a < acc.2 then (some a, f a) else acc) (o, v) =
        (some a, f a)
  | [], o, v => Or.inl rfl
  | x :: t, o, v => by
    simp only [List.foldl_cons]
    by_cases h : f x < v
    · rw [if_pos h]
      rcases argmin_foldl_fst t (some x) (f x) with h' | ⟨a, ha, h'⟩
      · exact Or.inr ⟨x, List.mem_cons_self x t, h'⟩
      · exact Or.inr ⟨a, List.mem_cons_of_mem x ha, h'⟩
    · rw [if_neg h]
      rcases argmin_foldl_fst t o v with h' | ⟨a, ha, h'⟩
      · exact Or.inl h'
      · exact Or.inr ⟨a, List.mem_cons_of_mem x ha, h'⟩

lemma argmin_spec (l : List α) (hne : l ≠ []) (hb : ∀ x ∈ l, f x < (2 : Int)) :
    ∃ a ∈ l,
      (l.foldl (fun acc a => if f a < acc.2 then (some a, f a) else acc)
        ((none : Option α), (2 : Int))).1 = some a ∧
      ∀ x ∈ l, f a ≤ f x := by
  rcases argmin_foldl_fst f l none 2 with h | ⟨a, ha, h⟩
  · obtain ⟨x, hx⟩ := List.exists_mem_of_ne_nil l hne
    have hle := (argmin_foldl_snd f l none 2).2 x hx
    rw [h] at hle
    exact absurd hle (not_le.mpr (hb x hx))
  · refine ⟨a, ha, by rw [h], fun x hx => ?_⟩
    have hle := (argmin_foldl_snd f l none 2).2 x hx
    rwa [h] at hle

end ArgFold

/-- Claim C6: `winner` misses a completed line.  On the board
`[[EMPTY,EMPTY,EMPTY],[X,X,X],[O,O,EMPTY]]` — reachable by legal play, `X`
having just completed row 1 — row 1 consists of three identical `X` marks,
yet `winner` returns `None`: the all-empty row 0 satisfies the unguarded
chained equality first and the function returns `board[0][0]`, i.e. `None`. -/
theorem winner_misses_completed_row :
    winner rowTwoBoard = none ∧
    rowTwoBoard 1 0 = some Player.X ∧
    rowTwoBoard 1 1 = some Player.X ∧
    rowTwoBoard 1 2 = some Player.X := by decide

/-- Claim C7: `result(board, action)` raises the invalid-move error exactly
when the target cell is occupied; on an empty target it returns the board
that agrees with the input everywhere except at `action`, which now holds
`player(board)`'s mark. -/
theorem result_spec (b : TBoard) (a : Fin 3 × Fin 3) :
    (result b a = Except.error () ↔ b a.1 a.2 ≠ none) ∧
    (b a.1 a.2 = none →
      result b a = Except.ok (place b a (player b)) ∧
      place b a (player b) a.1 a.2 = some (player b) ∧
      ∀ x : Fin 3 × Fin 3, x ≠ a → place b a (player b) x.1 x.2 = b x.1 x.2) := by
  constructor
  · constructor
    · intro h
      by_cases hc : b a.1 a.2 = none
      · rw [result_eq_ok_place hc] at h
        exact Except.noConfusion h
      · exact hc
    · intro h
      unfold result
      rw [if_pos h]
  · intro h
    refine ⟨result_eq_ok_place h, ?_, fun x hx => ?_⟩
    · unfold place
      rw [if_pos rfl]
    · unfold place
      rw [if_neg ?_]
      intro hc
      exact hx (Prod.ext (congrArg Prod.fst hc ▸ rfl) (congrArg Prod.snd hc ▸ rfl))

/-- Witness for `result_spec` at the empty initial board and action `(0,0)`. -/
theorem result_spec_witness :
    initial_state (0 : Fin 3) (0 : Fin 3) = none ∧
    result initial_state ((0 : Fin 3), (0 : Fin 3)) =
      Except.ok (place initial_state ((0 : Fin 3), (0 : Fin 3)) (player initial_state)) :=
  ⟨rfl, ((result_spec initial_state ((0 : Fin 3), (0 : Fin 3))).2 rfl).1⟩

/-- Claim C8: `minimax` returns `None` exactly on terminal boards; on a
non-terminal board it returns a legal action and, depending on whose turn
it is, that action maximizes (for `X`) or minimizes (for `O`) the
recursively computed `min_value`/`max_value` of the resulting position
over all available actions. -/
theorem minimax_spec (b : TBoard) :
    (minimax b = none ↔ terminal b = true) ∧
    (∀ a, minimax b = some a →
      a ∈ actionsList b ∧
      (player b = Player.X →
        ∀ x ∈ actionsList b,
          minValue (place b x (player b)) ≤ minValue (place b a (player b))) ∧
      (player b = Player.O →
        ∀ x ∈ actionsList b,
          maxValue (place b a (player b)) ≤ maxValue (place b x (player b)))) := by
  by_cases ht : terminal b = true
  · constructor
    · exact ⟨fun _ => ht, fun _ => by rw [minimax, if_pos ht]⟩
    · intro a ha
      rw [minimax, if_pos ht] at ha
      exact Option.noConfusion ha
  · have hne := (of_terminal_eq_false (Bool.not_eq_true _ ▸ ht)).2
    by_cases hp : player b = Player.X
    · obtain ⟨a0, ha0mem, ha0eq, ha0max⟩ :=
        argmax_spec (fun a => minValue (place b a (player b))) (actionsList b) hne
          (fun x _ => lt_of_lt_of_le (by decide) (mmValue_bounds 9 false _).1)
      have hmm : minimax b = some a0 := by
        rw [minimax, if_neg ht, if_pos hp]
        exact ha0eq
      constructor
      · constructor
        · intro h; rw [hmm] at h; exact Option.noConfusion h
        · intro h; exact absurd h ht
      · intro a ha
        rw [hmm] at ha
        obtain rfl := (Option.some.inj ha).symm
        exact ⟨ha0mem, fun _ => ha0max, fun hO => absurd (hp ▸ hO) (by simp)⟩
    · obtain ⟨a0, ha0mem, ha0eq, ha0min⟩ :=
        argmin_spec (fun a => maxValue (place b a (player b))) (actionsList b) hne
          (fun x _ => lt_of_le_of_lt (mmValue_bounds 9 true _).2 (by decide))
      have hmm : minimax b = some a0 := by
        rw [minimax, if_neg ht, if_neg hp]
        exact ha0eq
      constructor
      · constructor
        · intro h; rw [hmm] at h; exact Option.noConfusion h
        · intro h; exact absurd h ht
      · intro a ha
        rw [hmm] at ha
        obtain rfl := (Option.some.inj ha).symm
        refine ⟨ha0mem, fun hX => absurd hX hp, fun _ => ha0min⟩

/-- Witness for `minimax_spec` on the one-empty-cell board: the returned
move is `(2,2)`, it is a legal action, and it is optimal for `X`. -/
theorem minimax_spec_witness :
    minimax oneMoveBoard = some ((2 : Fin 3), (2 : Fin 3)) ∧
    ((2 : Fin 3), (2 : Fin 3)) ∈ actionsList oneMoveBoard ∧
    minValue (place oneMoveBoard ((2 : Fin 3), (2 : Fin 3)) (player oneMoveBoard)) ≤
      minValue (place oneMoveBoard ((2 : Fin 3), (2 : Fin 3)) (player oneMoveBoard)) := by
  have h := (minimax_spec oneMoveBoard).2 ((2 : Fin 3), (2 : Fin 3)) (by decide)
  exact ⟨by decide, h.1, h.2.1 (by decide) _ h.1⟩

/-- Claim C10: in the store model, `result` never mutates the argument
board object — after the call the object at the argument's reference is
unchanged — and on success it returns a reference distinct from the
argument's, freshly holding the updated board. -/
theorem resultSt_frame (s : Store) (r : Nat) (a : Fin 3 × Fin 3)
    (h : r < s.length) :
    (resultSt s r a).1.getD r initial_state = s.getD r initial_state ∧
    ∀ r', (resultSt s r a).2 = Except.ok r' →
      r' ≠ r ∧
      (resultSt s r a).1.getD r' initial_state =
        place (s.getD r initial_state) a (player (s.getD r initial_state)) := by
  have hcopy : (s ++ [s.getD r initial_state]).getD s.length initial_state
      = s.getD r initial_state := by
    rw [List.getD_eq_getElem?_getD, List.getElem?_concat_length]
    rfl
  have hold : (s ++ [s.getD r initial_state]).getD r initial_state
      = s.getD r initial_state := by
    rw [List.getD_eq_getElem?_getD, List.getElem?_append, if_pos h,
      ← List.getD_eq_getElem?_getD]
  unfold resultSt deepcopy
  simp only [hcopy]
  by_cases hc : (s.getD r initial_state) a.1 a.2 ≠ none
  · rw [if_pos hc]
    exact ⟨hold, fun r' hr' => Except.noConfusion hr'⟩
  · rw [if_neg hc]
    constructor
    · rw [List.getD_eq_getElem?_getD, List.getElem?_set_ne (Nat.ne_of_gt h),
        ← List.getD_eq_getElem?_getD]
      exact hold
    · intro r' hr'
      obtain rfl := (Except.ok.inj hr').symm
      refine ⟨Nat.ne_of_gt h, ?_⟩
      rw [List.getD_eq_getElem?_getD, List.getElem?_set_eq_of_lt]
      · rfl
      · rw [List.length_append, List.length_singleton]
        omega

/-- Witness for `resultSt_frame` on a one-object store. -/
theorem resultSt_frame_witness :
    (0 : Nat) < ([initial_state] : Store).length ∧
    (resultSt [initial_state] 0 ((0 : Fin 3), (0 : Fin 3))).1.getD 0 initial_state =
      ([initial_state] : Store).getD 0 initial_state :=
  ⟨by decide, (resultSt_frame [initial_state] 0 ((0 : Fin 3), (0 : Fin 3)) (by decide)).1⟩

end TicTacToe
